import Mathlib

/-!
Verification of the diffing / update-summary engine of the
`pt-plugin-sync` repository (`src/pt_plugin_sync/diffing.py`).

Shallow embedding conventions:

* A Python `dict` is modelled as an association list `List (String × α)`
  in insertion order with distinct keys; `dget` models `d.get(k)`
  (first entry with the key, which is the only one when keys are distinct)
  and `dictInsert` models `d[k] = v` (update in place, else append),
  matching CPython's insertion-order-preserving dict semantics.
* A Python `set` of strings (`all_keys` in the source) is iterated in an
  implementation-defined order; we model set iteration canonically as
  sorted order (this matters only for the ordering of the per-machine
  `missing` / `unknown_versions` lists built in `compute_diff`'s first
  loop; membership, counts and the explicitly `sorted(...)` iterations
  are order-insensitive).
* Python string comparison is code-point lexicographic comparison, which
  we model on `List Char`; `\d` / `[A-Za-z]` in the tokenizing regex are
  modelled as ASCII digits / ASCII letters (`Char.isDigit`,
  `Char.isAlpha`).
* `generated_at` (wall-clock time) is omitted from the embedded outputs;
  no claim mentions it.
-/

namespace PTSync

/-- One raw plugin record, as a JSON object with optional string fields.
`none` models an absent (or JSON-null) field. -/
structure Plugin where
  bundle_id : Option String
  bundle_name : Option String
  short_version : Option String
  bundle_version : Option String
deriving DecidableEq, Repr

/-- One machine's raw report; `compute_diff` only reads its `plugins` list. -/
structure Report where
  plugins : List Plugin
deriving DecidableEq, Repr

/-- Python truthiness for an optional string: `None` and `""` are falsy.
`truthy x` is `some s` exactly when the Python value is truthy. -/
def truthy : Option String → Option String
  | some s => if s = "" then none else some s
  | none => none

/-- `plugin.get("bundle_id") or plugin.get("bundle_name")` followed by the
`if not key: continue` guard: the plugin's correlation key, if any. -/
def pluginKey (p : Plugin) : Option String :=
  match truthy p.bundle_id with
  | some s => some s
  | none => truthy p.bundle_name

/-- `plugin.get("short_version") or "unknown"`. -/
def shortOf (p : Plugin) : String := (truthy p.short_version).getD "unknown"

/-- `plugin.get("bundle_version") or "unknown"`. -/
def bundleOf (p : Plugin) : String := (truthy p.bundle_version).getD "unknown"

/-- `d.get(k)` on an association-list dict: first entry with key `k`. -/
def dget {α : Type} (l : List (String × α)) (k : String) : Option α :=
  (l.find? (fun kv => kv.1 = k)).map (·.2)

/-- `d[k] = v` on an association-list dict: update the existing entry in
place (CPython keeps the original insertion position), else append. -/
def dictInsert {α : Type} (l : List (String × α)) (k : String) (v : α) :
    List (String × α) :=
  if l.any (fun kv => kv.1 = k) then
    l.map (fun kv => if kv.1 = k then (k, v) else kv)
  else
    l ++ [(k, v)]

/-- One iteration of `_plugin_map`'s loop body (diffing.py lines 29-33):
skip a record without a truthy key, else `mapping[key] = plugin`. -/
def pmStep (m : List (String × Plugin)) (p : Plugin) :
    List (String × Plugin) :=
  match pluginKey p with
  | none => m
  | some k => dictInsert m k p

/-- `_plugin_map` (diffing.py lines 26-34): deduplicate a report's plugin
list into a key → record dict, last write wins, skipping records without
a truthy key. -/
def plugin_map (r : Report) : List (String × Plugin) :=
  r.plugins.foldl pmStep []

/-- `plugin_maps = {machine: _plugin_map(report) for machine, report in
reports.items()}` — per-machine key → record dicts, in input order. -/
def pmaps (reports : List (String × Report)) :
    List (String × List (String × Plugin)) :=
  reports.map (fun mr => (mr.1, plugin_map mr.2))

/-- Python string `<` on code points (strings here are char lists):
lexicographic, a strict prefix is smaller. -/
def charListLt : List Char → List Char → Bool
  | [], [] => false
  | [], _ :: _ => true
  | _ :: _, [] => false
  | a :: as, b :: bs => if a = b then charListLt as bs else decide (a < b)

/-- Python string `<=` on code points. -/
def charListLe : List Char → List Char → Bool
  | [], _ => true
  | _ :: _, [] => false
  | a :: as, b :: bs => if a = b then charListLe as bs else decide (a < b)

/-- Python `<=` on strings (proved below to agree with `String`'s `≤`). -/
def strLeB (a b : String) : Bool := charListLe a.data b.data

/-- `sorted(...)` on a list of strings. -/
def sortedStrings (l : List String) : List String :=
  List.insertionSort (fun a b => strLeB a b = true) l

/-- The distinct elements of a list (the contents of the Python set built
from it); `Nodup`, same membership as the input. -/
def dedupL {α : Type} [DecidableEq α] : List α → List α
  | [] => []
  | a :: as => if a ∈ as then dedupL as else a :: dedupL as

/-- The contents of the `all_keys` set (union of every machine's key set),
listed in the canonical sorted order used to model set iteration, which
is also exactly `sorted(all_keys)`. -/
def allKeys (pms : List (String × List (String × Plugin))) : List String :=
  sortedStrings (dedupL (pms.map (fun mp => mp.2.map (·.1))).flatten)

/-- An element of a `missing` or `unknown_versions` list: `{key,
bundle_name, bundle_id}` (the latter two are raw `.get` results). -/
structure KEntry where
  key : String
  bundle_name : Option String
  bundle_id : Option String
deriving DecidableEq, Repr

/-- A machine's `counts` record: `{"total": ..., "unknown_versions": ...}`. -/
structure Counts where
  total : Nat
  unknown_versions : Nat
deriving DecidableEq, Repr

/-- A `version_mismatches` element; `versions` is the per-machine
`{short_version, bundle_version}` dict in its insertion order. -/
structure MismatchEntry where
  key : String
  bundle_name : Option String
  bundle_id : Option String
  versions : List (String × (String × String))
deriving DecidableEq, Repr

/-- The `Diff` structure produced by `compute_diff` (minus `generated_at`). -/
structure Diff where
  machines : List String
  missing : List (String × List KEntry)
  version_mismatches : List MismatchEntry
  unknown_versions : List (String × List KEntry)
  counts : List (String × Counts)
deriving DecidableEq, Repr

/-- `next((m.get(key) for m in plugin_maps.values() if key in m), None)`:
the record for `key` held by the first machine, in input order, that has
it. -/
def samplePlugin (pms : List (String × List (String × Plugin)))
    (k : String) : Option Plugin :=
  (pms.find? (fun mp => (dget mp.2 k).isSome)).bind (fun mp => dget mp.2 k)

/-- One machine's `missing` list (diffing.py lines 50-63): every key of
`all_keys` absent from the machine's mapping, carrying representative
metadata from `samplePlugin`. -/
def missingFor (pms : List (String × List (String × Plugin)))
    (mp : List (String × Plugin)) (keys : List String) : List KEntry :=
  keys.filterMap (fun k =>
    if (dget mp k).isSome then none
    else some
      { key := k
        bundle_name := (samplePlugin pms k).bind Plugin.bundle_name
        bundle_id := (samplePlugin pms k).bind Plugin.bundle_id })

/-- One machine's `unknown_versions` list (diffing.py lines 64-75): keys
the machine holds whose record has both versions `"unknown"`. -/
def unknownFor (mp : List (String × Plugin)) (keys : List String) :
    List KEntry :=
  keys.filterMap (fun k =>
    match dget mp k with
    | none => none
    | some p =>
      if shortOf p = "unknown" ∧ bundleOf p = "unknown" then
        some { key := k, bundle_name := p.bundle_name, bundle_id := p.bundle_id }
      else none)

/-- `versions_by_machine` for `compute_diff` (lines 83-91): for machines
holding the key, in input order, the `(short_version, bundle_version)`
pair after the `or "unknown"` normalization. -/
def versionsByMachine (pms : List (String × List (String × Plugin)))
    (k : String) : List (String × (String × String)) :=
  pms.filterMap (fun mp =>
    (dget mp.2 k).map (fun p => (mp.1, (shortOf p, bundleOf p))))

/-- The `version_mismatches` list (diffing.py lines 81-109): for each key
in sorted order held by at least two machines, emit an entry when the set
of distinct version pairs has more than one element. -/
def mismatchesList (pms : List (String × List (String × Plugin)))
    (keys : List String) : List MismatchEntry :=
  keys.filterMap (fun k =>
    let vbm := versionsByMachine pms k
    if vbm.length ≤ 1 then none
    else if 1 < (dedupL (vbm.map Prod.snd)).length then
      some
        { key := k
          bundle_name := (samplePlugin pms k).bind Plugin.bundle_name
          bundle_id := (samplePlugin pms k).bind Plugin.bundle_id
          versions := vbm }
    else none)

/-- `compute_diff` (diffing.py lines 37-119).  The `missing` and
`unknown_versions` dicts are keyed by the sorted machine list (they are
initialized that way and each machine's list is filled independently);
`counts` is filled while iterating `plugin_maps.items()`, i.e. in input
order. -/
def compute_diff (reports : List (String × Report)) : Diff :=
  let machines := sortedStrings (reports.map Prod.fst)
  let pms := pmaps reports
  let keys := allKeys pms
  { machines := machines
    missing := machines.map (fun m =>
      (m, missingFor pms ((dget pms m).getD []) keys))
    version_mismatches := mismatchesList pms keys
    unknown_versions := machines.map (fun m =>
      (m, unknownFor ((dget pms m).getD []) keys))
    counts := pms.map (fun mp =>
      (mp.1, { total := mp.2.length
               unknown_versions := (unknownFor mp.2 keys).length })) }

/-- `format_diff_summary` (diffing.py lines 122-152). -/
def format_diff_summary (d : Diff) : String :=
  match d.machines with
  | [] => "No reports found."
  | _ =>
    let countLines := d.machines.map (fun m =>
      let c := (dget d.counts m).getD { total := 0, unknown_versions := 0 }
      s!"- {m}: {c.total} plugins, {c.unknown_versions} unknown versions")
    let missingLines := d.machines.filterMap (fun m =>
      let ml := (dget d.missing m).getD []
      if ml.isEmpty then none else some s!"- Missing on {m}: {ml.length}")
    let mismatchLines :=
      if d.version_mismatches.isEmpty then []
      else [s!"- Version mismatches: {d.version_mismatches.length}"]
    let unknownLines := d.machines.filterMap (fun m =>
      let ul := (dget d.unknown_versions m).getD []
      if ul.isEmpty then none else some s!"- Unknown versions on {m}: {ul.length}")
    String.intercalate "\n"
      ("Plugin sync diff summary:" ::
        (countLines ++ missingLines ++ mismatchLines ++ unknownLines))

/-- A version token: `(0, int(run))` for a digit run, `(1, run.lower())`
for a letter run (the Python tuple's first component becomes the
constructor). -/
inductive VToken where
  | num : Nat → VToken
  | txt : List Char → VToken
deriving DecidableEq, Repr

/-- Python `<` on single tokens, i.e. on the pairs `(0, int)` / `(1, str)`:
the tag decides first, then the payload compares by its own order. -/
def vtokenLt : VToken → VToken → Bool
  | .num a, .num b => decide (a < b)
  | .num _, .txt _ => true
  | .txt _, .num _ => false
  | .txt a, .txt b => charListLt a b

/-- Python `<` on token tuples: elementwise, first non-equal position
decides, otherwise the shorter tuple is smaller. -/
def vlistLt : List VToken → List VToken → Bool
  | [], [] => false
  | [], _ :: _ => true
  | _ :: _, [] => false
  | a :: as, b :: bs => if a = b then vlistLt as bs else vtokenLt a b

/-- Value of a digit run, as `int(run)` computes it. -/
def natOfDigits (cs : List Char) : Nat :=
  cs.foldl (fun n c => 10 * n + (c.toNat - 48)) 0

/-- The kind of run the tokenizer is currently inside. -/
inductive RunKind where
  | digit
  | alpha
deriving DecidableEq, Repr

/-- Close a finished run (chars carried in reverse order). -/
def finishRun : RunKind → List Char → VToken
  | .digit, acc => .num (natOfDigits acc.reverse)
  | .alpha, acc => .txt (acc.reverse.map Char.toLower)

/-- State machine equivalent of `re.findall(r"\d+|[A-Za-z]+", value)`
followed by the per-token parse: maximal digit runs become `num`,
maximal letter runs become lowercased `txt`, other characters separate
runs and are dropped. -/
def tokenizeAux : List Char → Option (RunKind × List Char) → List VToken
  | [], none => []
  | [], some (k, acc) => [finishRun k acc]
  | c :: cs, none =>
    if c.isDigit then tokenizeAux cs (some (.digit, [c]))
    else if c.isAlpha then tokenizeAux cs (some (.alpha, [c]))
    else tokenizeAux cs none
  | c :: cs, some (.digit, acc) =>
    if c.isDigit then tokenizeAux cs (some (.digit, c :: acc))
    else if c.isAlpha then
      finishRun .digit acc :: tokenizeAux cs (some (.alpha, [c]))
    else finishRun .digit acc :: tokenizeAux cs none
  | c :: cs, some (.alpha, acc) =>
    if c.isDigit then
      finishRun .alpha acc :: tokenizeAux cs (some (.digit, [c]))
    else if c.isAlpha then tokenizeAux cs (some (.alpha, c :: acc))
    else finishRun .alpha acc :: tokenizeAux cs none

/-- `_version_tokens` (diffing.py lines 164-172). -/
def version_tokens (s : String) : List VToken :=
  tokenizeAux s.data none

/-- `_version_label` (diffing.py lines 175-182). -/
def version_label (short_version bundle_version : String) : Option String :=
  if short_version = "unknown" ∧ bundle_version = "unknown" then none
  else if short_version = "unknown" then some bundle_version
  else if bundle_version = "unknown" ∨ short_version = bundle_version then
    some short_version
  else some (short_version ++ " (" ++ bundle_version ++ ")")

/-- `_version_key` (diffing.py lines 185-190). -/
def version_key (short_version bundle_version : String) :
    Option (List VToken) :=
  if short_version ≠ "unknown" then some (version_tokens short_version)
  else if bundle_version ≠ "unknown" then some (version_tokens bundle_version)
  else none

/-- One machine's value in the summary's `versions_by_machine` dict
(diffing.py lines 216-223). -/
structure VData where
  short_version : String
  bundle_version : String
  version_key : Option (List VToken)
  label : Option String
deriving DecidableEq, Repr

/-- Build a machine's `VData` from its (deduplicated) record. -/
def vdataFor (p : Plugin) : VData :=
  { short_version := shortOf p
    bundle_version := bundleOf p
    version_key := version_key (shortOf p) (bundleOf p)
    label := version_label (shortOf p) (bundleOf p) }

/-- The summary's `versions_by_machine` dict (lines 211-223): machines
holding the key, in input order. -/
def versionsByMachineU (pms : List (String × List (String × Plugin)))
    (k : String) : List (String × VData) :=
  pms.filterMap (fun mp => (dget mp.2 k).map (fun p => (mp.1, vdataFor p)))

/-- The best-machine fold (diffing.py lines 225-233): scan the
`versions_by_machine` dict in its iteration order, keeping the first
machine whose orderable key is strictly greater than the current best. -/
def bestPair (vbm : List (String × VData)) :
    Option String × Option (List VToken) :=
  vbm.foldl
    (fun acc md =>
      match md.2.version_key with
      | none => acc
      | some kv =>
        match acc.2 with
        | none => (some md.1, some kv)
        | some bk => if vlistLt bk kv then (some md.1, some kv) else acc)
    (none, none)

/-- `best_version` (lines 235-237): the winning machine's label. -/
def bestVersionFor (pms : List (String × List (String × Plugin)))
    (k : String) : Option String :=
  match (bestPair (versionsByMachineU pms k)).1 with
  | none => none
  | some bm => (dget (versionsByMachineU pms k) bm).bind VData.label

/-- One element of `updates_by_machine[machine]`. -/
structure UpdateEntry where
  key : String
  bundle_name : Option String
  bundle_id : Option String
  current_version : Option String
  latest_version : Option String
  best_machine : Option String
  reason : String
deriving DecidableEq, Repr

/-- One element of an `updates_by_plugin` entry's `machines` list. -/
structure MachineAction where
  machine : String
  current_version : Option String
  reason : String
deriving DecidableEq, Repr

/-- One `updates_by_plugin` value. -/
structure PluginAgg where
  bundle_name : Option String
  bundle_id : Option String
  latest_version : Option String
  best_machine : Option String
  machines : List MachineAction
deriving DecidableEq, Repr

/-- The `UpdateSummary` structure (minus `generated_at`). -/
structure Summary where
  machines : List String
  updates_by_machine : List (String × List UpdateEntry)
  updates_by_plugin : List (String × PluginAgg)
deriving DecidableEq, Repr

/-- The body of the `for machine in machines` loop of
`compute_update_summary` (diffing.py lines 239-282) for one machine:
the update entry appended for key `k`, if any.  The branch order follows
the source: missing record, then absent `versions_by_machine` data
(unreachable when the machine holds the key and machine names are
distinct, kept for fidelity), then unorderable version key, then
strictly-outdated comparison. -/
def updateEntryFor (pms : List (String × List (String × Plugin)))
    (k : String) (m : String) : Option UpdateEntry :=
  let sp := samplePlugin pms k
  let bn := sp.bind Plugin.bundle_name
  let bi := sp.bind Plugin.bundle_id
  let vbm := versionsByMachineU pms k
  let best := bestPair vbm
  let bv := bestVersionFor pms k
  match dget ((dget pms m).getD []) k with
  | none =>
    some { key := k, bundle_name := bn, bundle_id := bi
           current_version := none, latest_version := bv
           best_machine := best.1, reason := "missing" }
  | some _ =>
    match dget vbm m with
    | none => none
    | some d =>
      match d.version_key with
      | none =>
        some { key := k, bundle_name := bn, bundle_id := bi
               current_version := d.label, latest_version := bv
               best_machine := best.1, reason := "unknown_version" }
      | some dk =>
        match best.2 with
        | none => none
        | some bk =>
          if vlistLt dk bk then
            some { key := k, bundle_name := bn, bundle_id := bi
                   current_version := d.label, latest_version := bv
                   best_machine := best.1, reason := "outdated" }
          else none

/-- `updates_by_machine` initialization: `{machine: [] for machine in
machines}`. -/
def initUbm (machines : List String) : List (String × List UpdateEntry) :=
  machines.map (fun m => (m, []))

/-- The first machine loop at one key: append each machine's entry (if
any) to its `updates_by_machine` list.  The dict's keys are exactly
`machines`, so iterating `machines` and appending to each dict entry is
the same as mapping over the dict's entries. -/
def stepUbm (pms : List (String × List (String × Plugin))) (k : String)
    (ubm : List (String × List UpdateEntry)) :
    List (String × List UpdateEntry) :=
  ubm.map (fun me => (me.1, me.2 ++ (updateEntryFor pms k me.1).toList))

/-- The `{machine, current_version, reason}` record appended to an
`updates_by_plugin` entry's `machines` list (lines 301-308). -/
def actionOf (m : String) (u : UpdateEntry) : MachineAction :=
  { machine := m, current_version := u.current_version, reason := u.reason }

/-- The dict value created by `updates_by_plugin.setdefault(key, ...)`
(lines 291-300). -/
def initAgg (pms : List (String × List (String × Plugin))) (k : String) :
    PluginAgg :=
  let sp := samplePlugin pms k
  { bundle_name := sp.bind Plugin.bundle_name
    bundle_id := sp.bind Plugin.bundle_id
    latest_version := bestVersionFor pms k
    best_machine := (bestPair (versionsByMachineU pms k)).1
    machines := [] }

/-- Append machine actions to the `updates_by_plugin` entry for `k`. -/
def ubpAppend (ubp : List (String × PluginAgg)) (k : String)
    (acts : List MachineAction) : List (String × PluginAgg) :=
  ubp.map (fun ke =>
    if ke.1 = k then (ke.1, { ke.2 with machines := ke.2.machines ++ acts })
    else ke)

/-- One machine's turn in the second machine loop at one key (diffing.py
lines 284-308): filter the machine's accumulated update list for entries
with the current key, `setdefault` the plugin aggregate and append one
machine action per matching entry. -/
def ubpStepM (pms : List (String × List (String × Plugin))) (k : String)
    (ubm : List (String × List UpdateEntry))
    (ubp : List (String × PluginAgg)) (m : String) :
    List (String × PluginAgg) :=
  let machine_updates := (dget ubm m).getD []
  if machine_updates.isEmpty then ubp
  else
    let matching := machine_updates.filter (fun u => u.key = k)
    if matching.isEmpty then ubp
    else
      let ubp1 :=
        if ubp.any (fun ke => ke.1 = k) then ubp
        else ubp ++ [(k, initAgg pms k)]
      ubpAppend ubp1 k (matching.map (actionOf m))

/-- The second machine loop at one key: fold `ubpStepM` over the sorted
machine list. -/
def stepUbp (machines : List String)
    (pms : List (String × List (String × Plugin))) (k : String)
    (ubm : List (String × List UpdateEntry))
    (ubp : List (String × PluginAgg)) : List (String × PluginAgg) :=
  machines.foldl (ubpStepM pms k ubm) ubp

/-- The whole body of the `for key in sorted(all_keys)` loop. -/
def stepKey (machines : List String)
    (pms : List (String × List (String × Plugin)))
    (st : List (String × List UpdateEntry) × List (String × PluginAgg))
    (k : String) :
    List (String × List UpdateEntry) × List (String × PluginAgg) :=
  (stepUbm pms k st.1, stepUbp machines pms k (stepUbm pms k st.1) st.2)

/-- `compute_update_summary` (diffing.py lines 193-315). -/
def compute_update_summary (reports : List (String × Report)) : Summary :=
  let machines := sortedStrings (reports.map Prod.fst)
  let pms := pmaps reports
  let keys := allKeys pms
  let st := keys.foldl (stepKey machines pms) (initUbm machines, [])
  { machines := machines
    updates_by_machine := st.1
    updates_by_plugin := st.2 }

/-- The spec's per-position token order (§4.1 of the spec): `Numeric`
sorts before `Textual`; numeric values compare as integers; textual
values compare as strings (case-insensitively — the tokenizer stores them
lowercased, so plain lexicographic comparison of the stored values is the
case-insensitive comparison of the runs). -/
def specTokenLt : VToken → VToken → Prop
  | .num a, .num b => a < b
  | .num _, .txt _ => True
  | .txt _, .num _ => False
  | .txt a, .txt b => List.Lex (· < ·) a b

/-- Shorthand for building a raw plugin record in examples. -/
def mkP (bi bn sv bv : Option String) : Plugin :=
  { bundle_id := bi, bundle_name := bn, short_version := sv, bundle_version := bv }

/-- A single machine whose only plugin has no version information. -/
def exUnknownReports : List (String × Report) :=
  [("A", ⟨[mkP (some "alpha") (some "Alpha") none none]⟩)]

/-- Machines `A` and `B` hold the same key `k` with the same versions but
different `bundle_name` metadata; `C` lacks it. -/
def exMetaFoo : Report := ⟨[mkP (some "k") (some "Foo") (some "1.0") none]⟩

def exMetaBar : Report := ⟨[mkP (some "k") (some "Bar") (some "1.0") none]⟩

def exOrderAB : List (String × Report) :=
  [("A", exMetaFoo), ("B", exMetaBar), ("C", ⟨[]⟩)]

def exOrderBA : List (String × Report) :=
  [("B", exMetaBar), ("A", exMetaFoo), ("C", ⟨[]⟩)]

/-- A report holding key `a` at version `1.0` / `1`. -/
def exTieR : Report := ⟨[mkP (some "a") (some "Alpha") (some "1.0") (some "1")]⟩

/-- `B` inserted before `A`, both holding key `a` at the same version;
`C` lacks it. -/
def exTieBA : List (String × Report) :=
  [("B", exTieR), ("A", exTieR), ("C", ⟨[]⟩)]

/-- The same key-value pairs as `exTieBA`, `A` inserted first. -/
def exTieAB : List (String × Report) :=
  [("A", exTieR), ("B", exTieR), ("C", ⟨[]⟩)]

/-- Two machines, one shared outdated plugin and one plugin only on `A`. -/
def exTwo : List (String × Report) :=
  [("A", ⟨[mkP (some "a") (some "Alpha") (some "1.0") (some "1"),
           mkP (some "b") (some "Beta") (some "1.0") (some "1")]⟩),
   ("B", ⟨[mkP (some "a") (some "Alpha") (some "2.0") (some "2")]⟩)]

/-- A snapshot listing the same key `d` twice with different versions. -/
def exDupR : Report :=
  ⟨[mkP (some "d") (some "Dup") (some "1.0") none,
    mkP (some "d") (some "Dup2") (some "2.0") none]⟩

/-- One machine whose snapshot lists the same key twice. -/
def exDupReports : List (String × Report) := [("A", exDupR)]

/-! ### Association-list dictionary lemmas -/

theorem dget_nil {α : Type} (k : String) :
    dget ([] : List (String × α)) k = none := rfl

theorem dget_cons {α : Type} (x : String × α) (l : List (String × α))
    (k : String) : dget (x :: l) k = if x.1 = k then some x.2 else dget l k := by
  by_cases h : x.1 = k <;> simp [dget, List.find?, h]

theorem dget_map_self {α : Type} (l : List String) (f : String → α)
    (k : String) :
    dget (l.map (fun m => (m, f m))) k = if k ∈ l then some (f k) else none := by
  induction l with
  | nil => rfl
  | cons a as ih =>
    rw [List.map_cons, dget_cons]
    by_cases h : a = k
    · subst h; simp
    · have h2 : ¬k = a := fun hh => h hh.symm
      simp [h, h2, ih, List.mem_cons]

theorem dget_map_snd {α β : Type} (l : List (String × α)) (f : α → β)
    (k : String) :
    dget (l.map (fun x => (x.1, f x.2))) k = (dget l k).map f := by
  induction l with
  | nil => rfl
  | cons a as ih =>
    rw [List.map_cons, dget_cons, dget_cons]
    by_cases h : a.1 = k <;> simp [h, ih]

theorem dget_isSome_iff {α : Type} (l : List (String × α)) (k : String) :
    (dget l k).isSome ↔ k ∈ l.map Prod.fst := by
  induction l with
  | nil => simp [dget_nil]
  | cons a as ih =>
    rw [dget_cons, List.map_cons]
    by_cases h : a.1 = k
    · simp [h]
    · have h2 : ¬k = a.1 := fun hh => h hh.symm
      simp [h, h2, ih, List.mem_cons]

theorem dget_eq_none_iff {α : Type} (l : List (String × α)) (k : String) :
    dget l k = none ↔ k ∉ l.map Prod.fst := by
  rw [← dget_isSome_iff, Option.isSome_iff_exists]
  cases dget l k <;> simp

/-! ### Deduplication lemmas -/

theorem mem_dedupL {α : Type} [DecidableEq α] (l : List α) (a : α) :
    a ∈ dedupL l ↔ a ∈ l := by
  induction l with
  | nil => simp [dedupL]
  | cons b bs ih =>
    by_cases h : b ∈ bs
    · simp only [dedupL, if_pos h, ih, List.mem_cons]
      constructor
      · exact Or.inr
      · rintro (rfl | hh)
        · exact h
        · exact hh
    · simp [dedupL, if_neg h, ih, List.mem_cons]

theorem nodup_dedupL {α : Type} [DecidableEq α] (l : List α) :
    (dedupL l).Nodup := by
  induction l with
  | nil => simp [dedupL]
  | cons b bs ih =>
    by_cases h : b ∈ bs
    · simpa [dedupL, if_pos h] using ih
    · simp only [dedupL, if_neg h, List.nodup_cons, mem_dedupL]
      exact ⟨h, ih⟩

/-! ### The code-point string order and `sorted` -/

theorem charListLt_iff_lex (x y : List Char) :
    charListLt x y = true ↔ List.Lex (· < ·) x y := by
  induction x generalizing y with
  | nil =>
    cases y with
    | nil =>
      simp only [charListLt]
      constructor
      · intro h; cases h
      · intro h; cases h
    | cons b bs =>
      simp only [charListLt, true_iff]
      exact List.Lex.nil
  | cons a as ih =>
    cases y with
    | nil =>
      simp only [charListLt]
      constructor
      · intro h; cases h
      · intro h; cases h
    | cons b bs =>
      simp only [charListLt]
      by_cases h : a = b
      · subst h
        rw [if_pos rfl, ih]
        constructor
        · exact List.Lex.cons
        · intro hl
          cases hl with
          | cons h2 => exact h2
          | rel h2 => exact absurd h2 (lt_irrefl a)
      · rw [if_neg h, decide_eq_true_iff]
        constructor
        · exact List.Lex.rel
        · intro hl
          cases hl with
          | cons h2 => exact absurd rfl h
          | rel h2 => exact h2

theorem charListLe_iff_not_lex (x y : List Char) :
    charListLe x y = true ↔ ¬ List.Lex (· < ·) y x := by
  induction x generalizing y with
  | nil =>
    cases y with
    | nil =>
      simp only [charListLe, true_iff]
      intro h; cases h
    | cons b bs =>
      simp only [charListLe, true_iff]
      intro h; cases h
  | cons a as ih =>
    cases y with
    | nil =>
      simp only [charListLe]
      constructor
      · intro h
        exact absurd h (by simp)
      · intro h
        exact absurd List.Lex.nil h
    | cons b bs =>
      simp only [charListLe]
      by_cases h : a = b
      · subst h
        rw [if_pos rfl, ih]
        constructor
        · intro h2 hl
          cases hl with
          | cons h3 => exact h2 h3
          | rel h3 => exact absurd h3 (lt_irrefl a)
        · intro h2 h3
          exact h2 (List.Lex.cons h3)
      · rw [if_neg h, decide_eq_true_iff]
        constructor
        · intro h2 hl
          cases hl with
          | cons h3 => exact h rfl
          | rel h3 => exact absurd h2 (asymm h3)
        · intro h2
          rcases lt_trichotomy a b with h3 | h3 | h3
          · exact h3
          · exact absurd h3 h
          · exact absurd (List.Lex.rel h3) h2

theorem strLeB_iff_le (a b : String) : strLeB a b = true ↔ a ≤ b := by
  rw [String.le_iff_toList_le, ← not_lt]
  have h2 : b.toList < a.toList ↔ List.Lex (· < ·) b.data a.data := Iff.rfl
  rw [h2]
  exact charListLe_iff_not_lex a.data b.data

theorem strLeB_total (a b : String) : strLeB a b = true ∨ strLeB b a = true := by
  rw [strLeB_iff_le, strLeB_iff_le]
  exact le_total a b

theorem strLeB_trans {a b c : String} (h1 : strLeB a b = true)
    (h2 : strLeB b c = true) : strLeB a c = true := by
  rw [strLeB_iff_le] at *
  exact le_trans h1 h2

theorem strLeB_antisymm {a b : String} (h1 : strLeB a b = true)
    (h2 : strLeB b a = true) : a = b := by
  rw [strLeB_iff_le] at *
  exact le_antisymm h1 h2

instance : IsTotal String (fun a b => strLeB a b = true) := ⟨strLeB_total⟩

instance : IsTrans String (fun a b => strLeB a b = true) :=
  ⟨fun _ _ _ => strLeB_trans⟩

instance : IsAntisymm String (fun a b => strLeB a b = true) :=
  ⟨fun _ _ => strLeB_antisymm⟩

theorem sortedStrings_perm (l : List String) : List.Perm (sortedStrings l) l :=
  List.perm_insertionSort _ l

theorem mem_sortedStrings (l : List String) (k : String) :
    k ∈ sortedStrings l ↔ k ∈ l :=
  (sortedStrings_perm l).mem_iff

theorem sortedStrings_sorted (l : List String) :
    (sortedStrings l).Sorted (fun a b => strLeB a b = true) :=
  List.sorted_insertionSort _ l

theorem sortedStrings_sorted_le (l : List String) :
    (sortedStrings l).Sorted (· ≤ ·) :=
  (sortedStrings_sorted l).imp (fun h => (strLeB_iff_le _ _).mp h)

theorem sortedStrings_nodup {l : List String} (h : l.Nodup) :
    (sortedStrings l).Nodup :=
  (sortedStrings_perm l).nodup_iff.mpr h

theorem sortedStrings_eq_of_perm {l1 l2 : List String} (h : List.Perm l1 l2) :
    sortedStrings l1 = sortedStrings l2 :=
  List.eq_of_perm_of_sorted
    (((sortedStrings_perm l1).trans h).trans (sortedStrings_perm l2).symm)
    (sortedStrings_sorted l1) (sortedStrings_sorted l2)

/-! ### `allKeys` lemmas -/

theorem allKeys_nodup (pms : List (String × List (String × Plugin))) :
    (allKeys pms).Nodup :=
  sortedStrings_nodup (nodup_dedupL _)

theorem allKeys_sorted (pms : List (String × List (String × Plugin))) :
    (allKeys pms).Sorted (· ≤ ·) :=
  sortedStrings_sorted_le _

theorem mem_allKeys (pms : List (String × List (String × Plugin)))
    (k : String) :
    k ∈ allKeys pms ↔ ∃ mp ∈ pms, (dget mp.2 k).isSome := by
  rw [allKeys, mem_sortedStrings, mem_dedupL, List.mem_flatten]
  constructor
  · rintro ⟨kl, hkl, hk⟩
    rw [List.mem_map] at hkl
    rcases hkl with ⟨mp, hmp, rfl⟩
    exact ⟨mp, hmp, (dget_isSome_iff _ _).mpr hk⟩
  · rintro ⟨mp, hmp, hk⟩
    exact ⟨mp.2.map Prod.fst, List.mem_map_of_mem _ hmp,
      (dget_isSome_iff _ _).mp hk⟩

/-! ### Token ordering lemmas -/

theorem specTokenLt_irrefl (a : VToken) : ¬ specTokenLt a a := by
  cases a with
  | num n => exact lt_irrefl n
  | txt s =>
    show ¬ List.Lex (· < ·) s s
    induction s with
    | nil => intro h; cases h
    | cons c cs ih =>
      intro h
      cases h with
      | cons h2 => exact ih h2
      | rel h2 => exact absurd h2 (lt_irrefl c)

theorem vtokenLt_iff_spec (a b : VToken) :
    vtokenLt a b = true ↔ specTokenLt a b := by
  cases a <;> cases b <;>
    simp [vtokenLt, specTokenLt, charListLt_iff_lex]

/-- C5: token sequences produced by `_version_tokens` are compared (by
Python's tuple `<`, embedded as `vlistLt`) exactly by standard
lexicographic sequence ordering with the spec's per-position token order
(`Numeric` before `Textual`, integers numerically, lowercased text
lexically); in particular `tokenize("1.9.9") < tokenize("2.0")` and
`tokenize("v9") < tokenize("v10")`, i.e. `"2.0" > "1.9.9"` and
`"v10" > "v9"`. -/
theorem tokens_order_lexicographic :
    (∀ xs ys : List VToken,
        vlistLt xs ys = true ↔ List.Lex specTokenLt xs ys) ∧
    vlistLt (version_tokens "1.9.9") (version_tokens "2.0") = true ∧
    vlistLt (version_tokens "v9") (version_tokens "v10") = true := by
  refine ⟨?_, rfl, rfl⟩
  intro xs
  induction xs with
  | nil =>
    intro ys
    cases ys with
    | nil =>
      simp only [vlistLt]
      constructor
      · intro h
        exact absurd h (by simp)
      · intro h
        cases h
    | cons b bs =>
      simp only [vlistLt, true_iff]
      exact List.Lex.nil
  | cons a as ih =>
    intro ys
    cases ys with
    | nil =>
      simp only [vlistLt]
      constructor
      · intro h
        exact absurd h (by simp)
      · intro h
        cases h
    | cons b bs =>
      simp only [vlistLt]
      by_cases h : a = b
      · subst h
        rw [if_pos rfl, ih bs]
        constructor
        · exact List.Lex.cons
        · intro hl
          cases hl with
          | cons h2 => exact h2
          | rel h2 => exact absurd h2 (specTokenLt_irrefl a)
      · rw [if_neg h, vtokenLt_iff_spec]
        constructor
        · exact List.Lex.rel
        · intro hl
          cases hl with
          | cons h2 => exact absurd rfl h
          | rel h2 => exact h2

/-- C7: `_version_label` returns `null` when both versions are
`"unknown"`, the bundle version when only the short version is
`"unknown"`, the short version when the bundle version is `"unknown"` or
equal to it, and `"short (bundle)"` otherwise; with the three concrete
examples from the spec. -/
theorem version_label_rules :
    (∀ sv bv : String,
      version_label sv bv =
        if sv = "unknown" ∧ bv = "unknown" then none
        else if sv = "unknown" then some bv
        else if bv = "unknown" ∨ sv = bv then some sv
        else some (sv ++ " (" ++ bv ++ ")")) ∧
    version_label "1.2.3" "123" = some "1.2.3 (123)" ∧
    version_label "1.2.3" "1.2.3" = some "1.2.3" ∧
    version_label "unknown" "unknown" = none :=
  ⟨fun _ _ => rfl, rfl, rfl, rfl⟩

/-- C9: the engines are total — `compute_diff` of the empty report
mapping is the empty-but-valid `Diff` (`machines = []`, all components
empty), and `format_diff_summary` of any `Diff` with no machines is the
literal `"No reports found."`. -/
theorem engines_total_on_empty :
    compute_diff [] =
      { machines := [], missing := [], version_mismatches := [],
        unknown_versions := [], counts := [] } ∧
    (∀ d : Diff, d.machines = [] →
      format_diff_summary d = "No reports found.") := by
  refine ⟨rfl, ?_⟩
  intro d h
  simp only [format_diff_summary, h]

/-- Witness for C9: the second conjunct applied to a concrete `Diff`. -/
theorem engines_total_on_empty_witness :
    format_diff_summary
      { machines := [], missing := [], version_mismatches := [],
        unknown_versions := [], counts := [] } = "No reports found." :=
  engines_total_on_empty.2 _ rfl

/-! ### Dictionary-insert lemmas and C8 -/

theorem dget_append {α : Type} (l1 l2 : List (String × α)) (k : String) :
    dget (l1 ++ l2) k = (dget l1 k).or (dget l2 k) := by
  simp only [dget, List.find?_append]
  cases h : List.find? (fun kv => kv.1 = k) l1 <;> simp [h]

theorem dget_map_replace_found {α : Type} (l : List (String × α))
    (k : String) (v : α) (hmem : ∃ kv ∈ l, kv.1 = k) :
    dget (l.map (fun kv => if kv.1 = k then (k, v) else kv)) k = some v := by
  induction l with
  | nil => simp at hmem
  | cons a as ih =>
    rw [List.map_cons]
    by_cases h1 : a.1 = k
    · rw [if_pos h1, dget_cons]
      simp
    · rw [if_neg h1, dget_cons, if_neg h1]
      apply ih
      rcases hmem with ⟨kv, hkv, hk⟩
      rcases List.mem_cons.mp hkv with rfl | hkv2
      · exact absurd hk h1
      · exact ⟨kv, hkv2, hk⟩

theorem dget_map_replace_other {α : Type} (l : List (String × α))
    (k' : String) (v : α) (k : String) (h : ¬k' = k) :
    dget (l.map (fun kv => if kv.1 = k' then (k', v) else kv)) k = dget l k := by
  induction l with
  | nil => rfl
  | cons a as ih =>
    rw [List.map_cons]
    by_cases h1 : a.1 = k'
    · rw [if_pos h1, dget_cons, dget_cons]
      have h2 : ¬a.1 = k := fun hh => h (h1 ▸ hh)
      rw [if_neg h, if_neg h2]
      exact ih
    · rw [if_neg h1, dget_cons, dget_cons]
      by_cases h2 : a.1 = k
      · rw [if_pos h2, if_pos h2]
      · rw [if_neg h2, if_neg h2]
        exact ih

theorem dget_dictInsert {α : Type} (l : List (String × α)) (k' : String)
    (v : α) (k : String) :
    dget (dictInsert l k' v) k = if k' = k then some v else dget l k := by
  rw [dictInsert]
  by_cases hc : l.any (fun kv => kv.1 = k')
  · rw [if_pos hc]
    by_cases h : k' = k
    · subst h
      rw [if_pos rfl]
      exact dget_map_replace_found l k' v (by simpa using hc)
    · rw [if_neg h]
      exact dget_map_replace_other l k' v k h
  · rw [if_neg hc, dget_append]
    have hnone : dget ([(k', v)] : List (String × α)) k =
        if k' = k then some v else none := by
      rw [dget_cons]
      by_cases h : k' = k <;> simp [h, dget_nil]
    by_cases h : k' = k
    · subst h
      have h2 : dget l k' = none := by
        rw [dget_eq_none_iff]
        intro hmm
        rcases List.mem_map.mp hmm with ⟨kv, hkv, hk⟩
        exact hc (List.any_eq_true.mpr ⟨kv, hkv, by simpa using hk⟩)
      rw [h2, hnone, if_pos rfl]
      rfl
    · rw [hnone, if_neg h, if_neg h]
      cases dget l k <;> rfl

theorem pmStep_none {m : List (String × Plugin)} {p : Plugin}
    (h : pluginKey p = none) : pmStep m p = m := by
  rw [pmStep, h]

theorem pmStep_some {m : List (String × Plugin)} {p : Plugin} {k : String}
    (h : pluginKey p = some k) : pmStep m p = dictInsert m k p := by
  rw [pmStep, h]

theorem plugin_map_lww (r : Report) (k : String) :
    dget (plugin_map r) k =
      (r.plugins.filter (fun p => pluginKey p = some k)).getLast? := by
  rw [plugin_map]
  induction r.plugins using List.reverseRecOn with
  | nil => rfl
  | append_singleton l p ih =>
    rw [List.foldl_append, List.filter_append, List.foldl_cons, List.foldl_nil]
    cases hpk : pluginKey p with
    | none =>
      have hf : List.filter (fun q => decide (pluginKey q = some k)) [p] = [] := by
        simp [hpk]
      rw [pmStep_none hpk, hf, List.append_nil, ih]
    | some k2 =>
      rw [pmStep_some hpk, dget_dictInsert]
      by_cases h : k2 = k
      · subst h
        have hf : List.filter (fun q => decide (pluginKey q = some k2)) [p] = [p] := by
          simp [hpk]
        rw [if_pos rfl, hf, List.getLast?_concat]
      · have hf : List.filter (fun q => decide (pluginKey q = some k)) [p] = [] := by
          simp [hpk, h]
        rw [if_neg h, hf, List.append_nil, ih]

theorem pmaps_lookup (reports : List (String × Report)) (m : String) :
    dget (pmaps reports) m = (dget reports m).map plugin_map :=
  dget_map_snd reports plugin_map m

/-- C8: within one snapshot duplicate keys are deduplicated last-write-wins
(the key mapping's entry for `k` is the last plugin in the raw sequence
whose key is `k`), and each machine's reported `total` is the size of its
deduplicated mapping (together with the unknown-version count produced
from that same mapping). -/
theorem dedup_last_write_wins_and_counts (reports : List (String × Report))
    (m : String) (r : Report) (hm : dget reports m = some r) :
    (∀ k, dget (plugin_map r) k =
        (r.plugins.filter (fun p => pluginKey p = some k)).getLast?) ∧
    dget (compute_diff reports).counts m =
      some { total := (plugin_map r).length
             unknown_versions :=
               (unknownFor (plugin_map r) (allKeys (pmaps reports))).length } := by
  constructor
  · exact fun k => plugin_map_lww r k
  · have h2 := dget_map_snd (pmaps reports)
      (fun mp2 => ({ total := mp2.length
                     unknown_versions :=
                       (unknownFor mp2 (allKeys (pmaps reports))).length } : Counts)) m
    rw [pmaps_lookup, hm] at h2
    simp only [Option.map_some'] at h2
    exact h2

/-- Witness for C8 at a snapshot with a duplicated key: the mapping keeps
the second record and `total` is 1, not the raw sequence length 2. -/
theorem dedup_last_write_wins_and_counts_witness :
    dget (plugin_map exDupR) "d" =
      some (mkP (some "d") (some "Dup2") (some "2.0") none) ∧
    dget (compute_diff exDupReports).counts "A" =
      some { total := 1, unknown_versions := 0 } := by
  have h := dedup_last_write_wins_and_counts exDupReports "A" exDupR rfl
  refine ⟨?_, h.2⟩
  rw [h.1 "d"]
  rfl

/-! ### Diff-component lookup lemmas and C6 -/

theorem pmaps_fst (reports : List (String × Report)) :
    (pmaps reports).map Prod.fst = reports.map Prod.fst := by
  simp [pmaps, List.map_map, Function.comp]

theorem mem_machines_of_dget (reports : List (String × Report)) (m : String)
    (h : (dget (pmaps reports) m).isSome) :
    m ∈ sortedStrings (reports.map Prod.fst) := by
  rw [mem_sortedStrings, ← pmaps_fst]
  exact (dget_isSome_iff _ _).mp h

theorem diff_missing_lookup (reports : List (String × Report)) (m : String)
    (hm : m ∈ sortedStrings (reports.map Prod.fst)) :
    dget (compute_diff reports).missing m =
      some (missingFor (pmaps reports) ((dget (pmaps reports) m).getD [])
        (allKeys (pmaps reports))) := by
  have h2 := dget_map_self (sortedStrings (reports.map Prod.fst))
    (fun m2 => missingFor (pmaps reports) ((dget (pmaps reports) m2).getD [])
      (allKeys (pmaps reports))) m
  rw [if_pos hm] at h2
  exact h2

theorem diff_unknown_lookup (reports : List (String × Report)) (m : String)
    (hm : m ∈ sortedStrings (reports.map Prod.fst)) :
    dget (compute_diff reports).unknown_versions m =
      some (unknownFor ((dget (pmaps reports) m).getD [])
        (allKeys (pmaps reports))) := by
  have h2 := dget_map_self (sortedStrings (reports.map Prod.fst))
    (fun m2 => unknownFor ((dget (pmaps reports) m2).getD [])
      (allKeys (pmaps reports))) m
  rw [if_pos hm] at h2
  exact h2

theorem missingFor_key_mem (pms : List (String × List (String × Plugin)))
    (mp : List (String × Plugin)) (keys : List String) (k : String) :
    (∃ e ∈ missingFor pms mp keys, e.key = k) ↔
      k ∈ keys ∧ dget mp k = none := by
  rw [missingFor]
  constructor
  · rintro ⟨e, he, hek⟩
    rw [List.mem_filterMap] at he
    rcases he with ⟨k2, hk2, hf⟩
    by_cases h : (dget mp k2).isSome
    · rw [if_pos h] at hf
      cases hf
    · rw [if_neg h] at hf
      cases hf
      subst hek
      exact ⟨hk2, Option.not_isSome_iff_eq_none.mp h⟩
  · rintro ⟨hk, hnone⟩
    refine ⟨{ key := k
              bundle_name := (samplePlugin pms k).bind Plugin.bundle_name
              bundle_id := (samplePlugin pms k).bind Plugin.bundle_id },
      List.mem_filterMap.mpr ⟨k, hk, ?_⟩, rfl⟩
    rw [if_neg (by simp [hnone])]

theorem unknownFor_key_mem (mp : List (String × Plugin))
    (keys : List String) (k : String) :
    (∃ e ∈ unknownFor mp keys, e.key = k) ↔
      k ∈ keys ∧ ∃ p, dget mp k = some p ∧
        shortOf p = "unknown" ∧ bundleOf p = "unknown" := by
  rw [unknownFor]
  constructor
  · rintro ⟨e, he, hek⟩
    rw [List.mem_filterMap] at he
    rcases he with ⟨k2, hk2, hf⟩
    cases hmp : dget mp k2 with
    | none =>
      rw [hmp] at hf
      have hf2 : (none : Option KEntry) = some e := hf
      cases hf2
    | some p =>
      rw [hmp] at hf
      have hf2 : (if shortOf p = "unknown" ∧ bundleOf p = "unknown" then
          some ({ key := k2, bundle_name := p.bundle_name
                  bundle_id := p.bundle_id } : KEntry)
        else none) = some e := hf
      by_cases hcond : shortOf p = "unknown" ∧ bundleOf p = "unknown"
      · rw [if_pos hcond] at hf2
        cases hf2
        subst hek
        exact ⟨hk2, p, hmp, hcond⟩
      · rw [if_neg hcond] at hf2
        cases hf2
  · rintro ⟨hk, p, hp, hcond⟩
    refine ⟨{ key := k, bundle_name := p.bundle_name
              bundle_id := p.bundle_id },
      List.mem_filterMap.mpr ⟨k, hk, ?_⟩, rfl⟩
    rw [hp]
    show (if shortOf p = "unknown" ∧ bundleOf p = "unknown" then
        some ({ key := k, bundle_name := p.bundle_name
                bundle_id := p.bundle_id } : KEntry)
      else none) = _
    rw [if_pos hcond]

/-- C6: for every key of `allKeys` and every machine, the Diff classifies
the pair in exactly one of three ways: missing (the machine's mapping
lacks the key), present-unknown (`unknown_versions` lists it: held with
both versions `"unknown"`), or present-known (held with at least one
known version); no pair is left unclassified. -/
theorem diff_classification_total (reports : List (String × Report))
    (m : String) (mp : List (String × Plugin)) (k : String)
    (hm : dget (pmaps reports) m = some mp)
    (hk : k ∈ allKeys (pmaps reports)) :
    ((∃ e ∈ (dget (compute_diff reports).missing m).getD [], e.key = k) ∧
      ¬(∃ e ∈ (dget (compute_diff reports).unknown_versions m).getD [],
          e.key = k) ∧
      ¬(∃ p, dget mp k = some p ∧
          (shortOf p ≠ "unknown" ∨ bundleOf p ≠ "unknown"))) ∨
    (¬(∃ e ∈ (dget (compute_diff reports).missing m).getD [], e.key = k) ∧
      (∃ e ∈ (dget (compute_diff reports).unknown_versions m).getD [],
        e.key = k) ∧
      ¬(∃ p, dget mp k = some p ∧
          (shortOf p ≠ "unknown" ∨ bundleOf p ≠ "unknown"))) ∨
    (¬(∃ e ∈ (dget (compute_diff reports).missing m).getD [], e.key = k) ∧
      ¬(∃ e ∈ (dget (compute_diff reports).unknown_versions m).getD [],
          e.key = k) ∧
      (∃ p, dget mp k = some p ∧
        (shortOf p ≠ "unknown" ∨ bundleOf p ≠ "unknown"))) := by
  have hmem : m ∈ sortedStrings (reports.map Prod.fst) :=
    mem_machines_of_dget reports m (by rw [hm]; rfl)
  rw [diff_missing_lookup reports m hmem, diff_unknown_lookup reports m hmem, hm]
  simp only [Option.getD_some]
  rw [missingFor_key_mem, unknownFor_key_mem]
  cases hmp : dget mp k with
  | none =>
    left
    refine ⟨⟨hk, rfl⟩, ?_, ?_⟩
    · rintro ⟨-, p, hp, -⟩
      cases hp
    · rintro ⟨p, hp, -⟩
      cases hp
  | some p =>
    by_cases hcond : shortOf p = "unknown" ∧ bundleOf p = "unknown"
    · right; left
      refine ⟨?_, ⟨hk, p, rfl, hcond⟩, ?_⟩
      · rintro ⟨-, hnone⟩
        cases hnone
      · rintro ⟨p2, hp2, hor⟩
        cases hp2
        rcases hor with h | h
        · exact h hcond.1
        · exact h hcond.2
    · right; right
      refine ⟨?_, ?_, p, rfl, not_and_or.mp hcond⟩
      · rintro ⟨-, hnone⟩
        cases hnone
      · rintro ⟨-, p2, hp2, hcond2⟩
        cases hp2
        exact hcond hcond2

/-- Witness for C6: machine `B` of `exTwo` is classified (as missing) for
key `b`, and in no other way. -/
theorem diff_classification_total_witness :
    ((∃ e ∈ (dget (compute_diff exTwo).missing "B").getD [], e.key = "b") ∧
      ¬(∃ e ∈ (dget (compute_diff exTwo).unknown_versions "B").getD [],
          e.key = "b") ∧
      ¬(∃ p, dget [("a", mkP (some "a") (some "Alpha") (some "2.0") (some "2"))]
            "b" = some p ∧
          (shortOf p ≠ "unknown" ∨ bundleOf p ≠ "unknown"))) ∨
    (¬(∃ e ∈ (dget (compute_diff exTwo).missing "B").getD [], e.key = "b") ∧
      (∃ e ∈ (dget (compute_diff exTwo).unknown_versions "B").getD [],
        e.key = "b") ∧
      ¬(∃ p, dget [("a", mkP (some "a") (some "Alpha") (some "2.0") (some "2"))]
            "b" = some p ∧
          (shortOf p ≠ "unknown" ∨ bundleOf p ≠ "unknown"))) ∨
    (¬(∃ e ∈ (dget (compute_diff exTwo).missing "B").getD [], e.key = "b") ∧
      ¬(∃ e ∈ (dget (compute_diff exTwo).unknown_versions "B").getD [],
          e.key = "b") ∧
      (∃ p, dget [("a", mkP (some "a") (some "Alpha") (some "2.0") (some "2"))]
          "b" = some p ∧
        (shortOf p ≠ "unknown" ∨ bundleOf p ≠ "unknown"))) :=
  diff_classification_total exTwo "B"
    [("a", mkP (some "a") (some "Alpha") (some "2.0") (some "2"))] "b"
    rfl (by decide)

/-! ### Version-mismatch lemmas and C4 -/

theorem compute_diff_mismatches (reports : List (String × Report)) :
    (compute_diff reports).version_mismatches =
      mismatchesList (pmaps reports) (allKeys (pmaps reports)) := rfl

theorem versionsByMachine_cons_none {a : String × List (String × Plugin)}
    {as : List (String × List (String × Plugin))} {k : String}
    (h : dget a.2 k = none) :
    versionsByMachine (a :: as) k = versionsByMachine as k := by
  simp [versionsByMachine, List.filterMap_cons, h]

theorem versionsByMachine_cons_some {a : String × List (String × Plugin)}
    {as : List (String × List (String × Plugin))} {k : String} {p : Plugin}
    (h : dget a.2 k = some p) :
    versionsByMachine (a :: as) k =
      (a.1, (shortOf p, bundleOf p)) :: versionsByMachine as k := by
  simp [versionsByMachine, List.filterMap_cons, h]

theorem versionsByMachine_fst_sublist
    (pms : List (String × List (String × Plugin))) (k : String) :
    ((versionsByMachine pms k).map Prod.fst).Sublist (pms.map Prod.fst) := by
  induction pms with
  | nil => simp [versionsByMachine]
  | cons a as ih =>
    cases ha : dget a.2 k with
    | none =>
      rw [versionsByMachine_cons_none ha, List.map_cons]
      exact ih.trans (List.sublist_cons_self _ _)
    | some p =>
      rw [versionsByMachine_cons_some ha, List.map_cons, List.map_cons]
      exact List.Sublist.cons₂ _ ih

theorem dget_versionsByMachine (pms : List (String × List (String × Plugin)))
    (hnd : (pms.map Prod.fst).Nodup) (k m : String) :
    dget (versionsByMachine pms k) m =
      (dget pms m).bind
        (fun mp => (dget mp k).map (fun p => (shortOf p, bundleOf p))) := by
  induction pms with
  | nil => rfl
  | cons a as ih =>
    rw [List.map_cons, List.nodup_cons] at hnd
    cases ha : dget a.2 k with
    | none =>
      rw [versionsByMachine_cons_none ha, dget_cons]
      by_cases hm : a.1 = m
      · rw [if_pos hm]
        have hnone : dget (versionsByMachine as k) m = none := by
          rw [dget_eq_none_iff]
          intro hmm
          exact hnd.1 (hm ▸ ((versionsByMachine_fst_sublist as k).mem hmm))
        rw [hnone]
        simp [ha]
      · rw [if_neg hm, ih hnd.2]
    | some p =>
      rw [versionsByMachine_cons_some ha]
      by_cases hm : a.1 = m
      · simp [dget_cons, hm, ha]
      · simp [dget_cons, hm, ih hnd.2]

theorem versionsByMachine_mem_allKeys
    (pms : List (String × List (String × Plugin))) (k : String)
    (h : 0 < (versionsByMachine pms k).length) : k ∈ allKeys pms := by
  rcases List.exists_mem_of_length_pos h with ⟨x, hx⟩
  rw [versionsByMachine, List.mem_filterMap] at hx
  rcases hx with ⟨mp, hmp, hf⟩
  cases hd : dget mp.2 k with
  | none => rw [hd] at hf; cases hf
  | some p => exact (mem_allKeys pms k).mpr ⟨mp, hmp, by rw [hd]; rfl⟩

theorem mismatchesList_key_mem (pms : List (String × List (String × Plugin)))
    (keys : List String) (k : String) :
    (∃ e ∈ mismatchesList pms keys, e.key = k) ↔
      k ∈ keys ∧ 2 ≤ (versionsByMachine pms k).length ∧
      1 < (dedupL ((versionsByMachine pms k).map Prod.snd)).length := by
  rw [mismatchesList]
  constructor
  · rintro ⟨e, he, hek⟩
    rw [List.mem_filterMap] at he
    rcases he with ⟨k2, hk2, hf⟩
    simp only at hf
    by_cases h1 : (versionsByMachine pms k2).length ≤ 1
    · rw [if_pos h1] at hf
      cases hf
    · rw [if_neg h1] at hf
      by_cases h2 : 1 < (dedupL ((versionsByMachine pms k2).map Prod.snd)).length
      · rw [if_pos h2] at hf
        cases hf
        have hk2k : k2 = k := hek
        subst hk2k
        exact ⟨hk2, by omega, h2⟩
      · rw [if_neg h2] at hf
        cases hf
  · rintro ⟨hk, h1, h2⟩
    have h1b : ¬(versionsByMachine pms k).length ≤ 1 := by omega
    refine ⟨{ key := k
              bundle_name := (samplePlugin pms k).bind Plugin.bundle_name
              bundle_id := (samplePlugin pms k).bind Plugin.bundle_id
              versions := versionsByMachine pms k },
      List.mem_filterMap.mpr ⟨k, hk, ?_⟩, rfl⟩
    simp only
    rw [if_neg h1b, if_pos h2]

theorem mismatchesList_entry (pms : List (String × List (String × Plugin)))
    (keys : List String) (e : MismatchEntry)
    (he : e ∈ mismatchesList pms keys) :
    e.versions = versionsByMachine pms e.key := by
  rw [mismatchesList, List.mem_filterMap] at he
  rcases he with ⟨k2, hk2, hf⟩
  simp only at hf
  by_cases h1 : (versionsByMachine pms k2).length ≤ 1
  · rw [if_pos h1] at hf
    cases hf
  · rw [if_neg h1] at hf
    by_cases h2 : 1 < (dedupL ((versionsByMachine pms k2).map Prod.snd)).length
    · rw [if_pos h2] at hf
      cases hf
      rfl
    · rw [if_neg h2] at hf
      cases hf

theorem mismatchesList_keys_sublist
    (pms : List (String × List (String × Plugin))) (keys : List String) :
    ((mismatchesList pms keys).map (fun e => e.key)).Sublist keys := by
  induction keys with
  | nil => simp [mismatchesList]
  | cons k ks ih =>
    rw [mismatchesList, List.filterMap_cons] at *
    simp only
    by_cases h1 : (versionsByMachine pms k).length ≤ 1
    · rw [if_pos h1]
      exact ih.trans (List.sublist_cons_self _ _)
    · rw [if_neg h1]
      by_cases h2 : 1 < (dedupL ((versionsByMachine pms k).map Prod.snd)).length
      · rw [if_pos h2, List.map_cons]
        exact List.Sublist.cons₂ _ ih
      · rw [if_neg h2]
        exact ih.trans (List.sublist_cons_self _ _)

/-- C4: `compute_diff` emits a `version_mismatches` entry for a key iff at
least two machines hold the key and their distinct
`(short_version, bundle_version)` pairs number more than one; each entry
carries every holding machine's pair (looked up in its `versions` dict),
and entries appear in sorted key order. -/
theorem version_mismatches_spec (reports : List (String × Report))
    (hnd : (reports.map Prod.fst).Nodup) :
    (∀ k, (∃ e ∈ (compute_diff reports).version_mismatches, e.key = k) ↔
        (2 ≤ (versionsByMachine (pmaps reports) k).length ∧
          1 < (dedupL ((versionsByMachine (pmaps reports) k).map
                Prod.snd)).length)) ∧
    (∀ e ∈ (compute_diff reports).version_mismatches,
      ∀ m mp p, dget (pmaps reports) m = some mp → dget mp e.key = some p →
        dget e.versions m = some (shortOf p, bundleOf p)) ∧
    (((compute_diff reports).version_mismatches.map
        (fun e => e.key)).Sorted (· ≤ ·)) := by
  have hnd2 : ((pmaps reports).map Prod.fst).Nodup := by
    rw [pmaps_fst]; exact hnd
  rw [compute_diff_mismatches]
  refine ⟨?_, ?_, ?_⟩
  · intro k
    rw [mismatchesList_key_mem]
    constructor
    · rintro ⟨-, h1, h2⟩
      exact ⟨h1, h2⟩
    · rintro ⟨h1, h2⟩
      exact ⟨versionsByMachine_mem_allKeys _ _ (by omega), h1, h2⟩
  · intro e he m mp p hm hp
    rw [mismatchesList_entry _ _ _ he, dget_versionsByMachine _ hnd2, hm]
    simp [hp]
  · exact List.Pairwise.sublist (mismatchesList_keys_sublist _ _)
      (allKeys_sorted (pmaps reports))

/-- Witness for C4 at `exTwo`: the shared key `a` (two machines, two
distinct version pairs) is reported; the singly-held key `b` is not. -/
theorem version_mismatches_spec_witness :
    (∃ e ∈ (compute_diff exTwo).version_mismatches, e.key = "a") ∧
    ¬(∃ e ∈ (compute_diff exTwo).version_mismatches, e.key = "b") := by
  have h := version_mismatches_spec exTwo (by decide)
  constructor
  · exact (h.1 "a").mpr (by decide)
  · intro hc
    exact absurd ((h.1 "b").mp hc) (by decide)

/-! ### Update-summary fold lemmas -/

theorem stepUbm_map (pms : List (String × List (String × Plugin)))
    (k : String) (machines : List String) (acc : String → List UpdateEntry) :
    stepUbm pms k (machines.map (fun m => (m, acc m))) =
      machines.map (fun m => (m, acc m ++ (updateEntryFor pms k m).toList)) := by
  rw [stepUbm, List.map_map]
  rfl

theorem foldl_stepKey_fst (machines : List String)
    (pms : List (String × List (String × Plugin))) (keys : List String)
    (acc : String → List UpdateEntry) (ubp0 : List (String × PluginAgg)) :
    (keys.foldl (stepKey machines pms)
        (machines.map (fun m => (m, acc m)), ubp0)).1 =
      machines.map (fun m => (m, acc m ++
        (keys.map (fun k => (updateEntryFor pms k m).toList)).flatten)) := by
  induction keys generalizing acc ubp0 with
  | nil => simp
  | cons k ks ih =>
    rw [List.foldl_cons]
    have h1 : stepKey machines pms (machines.map (fun m => (m, acc m)), ubp0) k =
        (machines.map (fun m => (m, acc m ++ (updateEntryFor pms k m).toList)),
         stepUbp machines pms k
           (stepUbm pms k (machines.map (fun m => (m, acc m)))) ubp0) := by
      rw [stepKey, stepUbm_map]
    rw [h1, ih]
    simp [List.append_assoc]

theorem ubm_lookup (reports : List (String × Report)) (m : String)
    (hm : m ∈ sortedStrings (reports.map Prod.fst)) :
    dget (compute_update_summary reports).updates_by_machine m =
      some (((allKeys (pmaps reports)).map
        (fun k => (updateEntryFor (pmaps reports) k m).toList)).flatten) := by
  have h : (compute_update_summary reports).updates_by_machine =
      (sortedStrings (reports.map Prod.fst)).map (fun m2 =>
        (m2, ([] : List UpdateEntry) ++
          ((allKeys (pmaps reports)).map
            (fun k => (updateEntryFor (pmaps reports) k m2).toList)).flatten)) :=
    foldl_stepKey_fst (sortedStrings (reports.map Prod.fst)) (pmaps reports)
      (allKeys (pmaps reports)) (fun _ => []) []
  rw [h]
  have h3 := dget_map_self (sortedStrings (reports.map Prod.fst))
    (fun m2 => ([] : List UpdateEntry) ++
      ((allKeys (pmaps reports)).map
        (fun k => (updateEntryFor (pmaps reports) k m2).toList)).flatten) m
  rw [if_pos hm] at h3
  rw [h3, List.nil_append]

theorem updateEntryFor_key (pms : List (String × List (String × Plugin)))
    (k m : String) (e : UpdateEntry)
    (he : updateEntryFor pms k m = some e) : e.key = k := by
  simp only [updateEntryFor] at he
  split at he
  · cases he
    rfl
  · split at he
    · cases he
    · split at he
      · cases he
        rfl
      · split at he
        · cases he
        · split at he
          · cases he
            rfl
          · cases he

theorem flatten_filter_key (keys : List String) (hk : keys.Nodup)
    (f : String → List UpdateEntry)
    (hf : ∀ k2 e, e ∈ f k2 → e.key = k2) (k : String) :
    ((keys.map f).flatten.filter (fun u => u.key = k)) =
      if k ∈ keys then f k else [] := by
  induction keys with
  | nil => simp
  | cons k2 ks ih =>
    rw [List.nodup_cons] at hk
    rw [List.map_cons, List.flatten_cons, List.filter_append]
    by_cases h : k2 = k
    · subst h
      rw [if_pos (List.mem_cons_self _ _)]
      have h1 : List.filter (fun u => decide (u.key = k2)) (f k2) = f k2 :=
        List.filter_eq_self.mpr (fun e he => by simp [hf k2 e he])
      have h2 : List.filter (fun u => decide (u.key = k2))
          (List.flatten (ks.map f)) = [] := by
        rw [ih hk.2, if_neg hk.1]
      rw [h1, h2, List.append_nil]
    · have h1 : List.filter (fun u => decide (u.key = k)) (f k2) = [] :=
        List.filter_eq_nil_iff.mpr
          (fun e he => by simp [hf k2 e he, h])
      rw [h1, List.nil_append, ih hk.2]
      by_cases h2 : k ∈ ks
      · rw [if_pos h2, if_pos (List.mem_cons.mpr (Or.inr h2))]
      · rw [if_neg h2, if_neg (by
          rw [List.mem_cons]
          rintro (rfl | hh)
          · exact h rfl
          · exact h2 hh)]

theorem ubm_filter_key (reports : List (String × Report)) (m : String)
    (hm : m ∈ sortedStrings (reports.map Prod.fst)) (k : String) :
    ((dget (compute_update_summary reports).updates_by_machine m).getD
        []).filter (fun u => u.key = k) =
      if k ∈ allKeys (pmaps reports) then
        (updateEntryFor (pmaps reports) k m).toList
      else [] := by
  rw [ubm_lookup reports m hm, Option.getD_some]
  exact flatten_filter_key _ (allKeys_nodup _) _
    (fun k2 e he =>
      updateEntryFor_key _ _ _ _
        (Option.mem_def.mp (Option.mem_toList.mp he))) k

/-! ### Best-version lemmas and C1 -/

theorem dget_mem {α : Type} (l : List (String × α)) (k : String) (v : α)
    (h : dget l k = some v) : (k, v) ∈ l := by
  induction l with
  | nil => cases h
  | cons a as ih =>
    rw [dget_cons] at h
    by_cases h1 : a.1 = k
    · rw [if_pos h1] at h
      cases h
      have h2 : (k, a.2) = a := by
        rw [← h1]
      rw [h2]
      exact List.mem_cons_self _ _
    · rw [if_neg h1] at h
      exact List.mem_cons.mpr (Or.inr (ih h))

theorem versionsByMachineU_cons_none {a : String × List (String × Plugin)}
    {as : List (String × List (String × Plugin))} {k : String}
    (h : dget a.2 k = none) :
    versionsByMachineU (a :: as) k = versionsByMachineU as k := by
  simp [versionsByMachineU, List.filterMap_cons, h]

theorem versionsByMachineU_cons_some {a : String × List (String × Plugin)}
    {as : List (String × List (String × Plugin))} {k : String} {p : Plugin}
    (h : dget a.2 k = some p) :
    versionsByMachineU (a :: as) k =
      (a.1, vdataFor p) :: versionsByMachineU as k := by
  simp [versionsByMachineU, List.filterMap_cons, h]

theorem versionsByMachineU_fst_sublist
    (pms : List (String × List (String × Plugin))) (k : String) :
    ((versionsByMachineU pms k).map Prod.fst).Sublist (pms.map Prod.fst) := by
  induction pms with
  | nil => simp [versionsByMachineU]
  | cons a as ih =>
    cases ha : dget a.2 k with
    | none =>
      rw [versionsByMachineU_cons_none ha, List.map_cons]
      exact ih.trans (List.sublist_cons_self _ _)
    | some p =>
      rw [versionsByMachineU_cons_some ha, List.map_cons, List.map_cons]
      exact List.Sublist.cons₂ _ ih

theorem dget_versionsByMachineU
    (pms : List (String × List (String × Plugin)))
    (hnd : (pms.map Prod.fst).Nodup) (k m : String) :
    dget (versionsByMachineU pms k) m =
      (dget pms m).bind (fun mp => (dget mp k).map vdataFor) := by
  induction pms with
  | nil => rfl
  | cons a as ih =>
    rw [List.map_cons, List.nodup_cons] at hnd
    cases ha : dget a.2 k with
    | none =>
      rw [versionsByMachineU_cons_none ha, dget_cons]
      by_cases hm : a.1 = m
      · rw [if_pos hm]
        have hnone : dget (versionsByMachineU as k) m = none := by
          rw [dget_eq_none_iff]
          intro hmm
          exact hnd.1 (hm ▸ ((versionsByMachineU_fst_sublist as k).mem hmm))
        rw [hnone]
        simp [ha]
      · rw [if_neg hm, ih hnd.2]
    | some p =>
      rw [versionsByMachineU_cons_some ha]
      by_cases hm : a.1 = m
      · simp [dget_cons, hm, ha]
      · simp [dget_cons, hm, ih hnd.2]

theorem versionsByMachineU_mem
    (pms : List (String × List (String × Plugin))) (k : String)
    (x : String × VData) :
    x ∈ versionsByMachineU pms k ↔
      ∃ mp ∈ pms, ∃ p, dget mp.2 k = some p ∧ x = (mp.1, vdataFor p) := by
  rw [versionsByMachineU, List.mem_filterMap]
  constructor
  · rintro ⟨mp, hmp, hf⟩
    cases hd : dget mp.2 k with
    | none => rw [hd] at hf; cases hf
    | some p =>
      rw [hd] at hf
      cases hf
      exact ⟨mp, hmp, p, hd, rfl⟩
  · rintro ⟨mp, hmp, p, hp, rfl⟩
    exact ⟨mp, hmp, by rw [hp]; rfl⟩

theorem bestPair_cons_none {a : String × VData} {as : List (String × VData)}
    (h : a.2.version_key = none) : bestPair (a :: as) = bestPair as := by
  rw [bestPair, bestPair, List.foldl_cons]
  congr 1
  simp [h]

theorem bestPair_all_none (vbm : List (String × VData))
    (h : ∀ x ∈ vbm, x.2.version_key = none) :
    bestPair vbm = (none, none) := by
  induction vbm with
  | nil => rfl
  | cons a as ih =>
    rw [bestPair_cons_none (h a (List.mem_cons_self _ _))]
    exact ih (fun x hx => h x (List.mem_cons.mpr (Or.inr hx)))

theorem version_key_eq_none (sv bv : String) :
    version_key sv bv = none ↔ sv = "unknown" ∧ bv = "unknown" := by
  rw [version_key]
  by_cases h1 : sv = "unknown" <;> by_cases h2 : bv = "unknown" <;>
    simp [h1, h2]

theorem any_iff_mem_allKeys (pms : List (String × List (String × Plugin)))
    (k : String) :
    (pms.any (fun mp => (dget mp.2 k).isSome) = true) ↔ k ∈ allKeys pms := by
  rw [List.any_eq_true, mem_allKeys]

/-- C1 (amended): for a key whose every holding machine has both versions
`"unknown"` (no orderable VersionKey anywhere), `compute_update_summary`
emits for that key — when some machine holds it — exactly one entry per
machine: a `"missing"` entry for machines lacking the key and an
`"unknown_version"` entry for machines holding it, all with null
`current_version`, `latest_version` and `best_machine`; and no entries at
all when the key is held by nobody. -/
theorem all_unknown_key_entries (reports : List (String × Report))
    (k : String) (hnd : (reports.map Prod.fst).Nodup)
    (hall : ∀ mp ∈ pmaps reports, ∀ p, dget mp.2 k = some p →
      shortOf p = "unknown" ∧ bundleOf p = "unknown") :
    ∀ m mp, dget (pmaps reports) m = some mp →
      ((dget (compute_update_summary reports).updates_by_machine m).getD
          []).filter (fun u => u.key = k) =
        if (pmaps reports).any (fun mp2 => (dget mp2.2 k).isSome) then
          (match dget mp k with
           | none =>
             [{ key := k
                bundle_name := (samplePlugin (pmaps reports) k).bind
                  Plugin.bundle_name
                bundle_id := (samplePlugin (pmaps reports) k).bind
                  Plugin.bundle_id
                current_version := none, latest_version := none
                best_machine := none, reason := "missing" }]
           | some _ =>
             [{ key := k
                bundle_name := (samplePlugin (pmaps reports) k).bind
                  Plugin.bundle_name
                bundle_id := (samplePlugin (pmaps reports) k).bind
                  Plugin.bundle_id
                current_version := none, latest_version := none
                best_machine := none, reason := "unknown_version" }])
        else [] := by
  intro m mp hm
  have hnd2 : ((pmaps reports).map Prod.fst).Nodup := by
    rw [pmaps_fst]; exact hnd
  have hmem : m ∈ sortedStrings (reports.map Prod.fst) :=
    mem_machines_of_dget reports m (by rw [hm]; rfl)
  rw [ubm_filter_key reports m hmem k]
  have hvbm : ∀ x ∈ versionsByMachineU (pmaps reports) k,
      x.2.version_key = none := by
    intro x hx
    rcases (versionsByMachineU_mem _ _ _).mp hx with ⟨mp2, hmp2, p, hp, rfl⟩
    rcases hall mp2 hmp2 p hp with ⟨h1, h2⟩
    show version_key (shortOf p) (bundleOf p) = none
    exact (version_key_eq_none _ _).mpr ⟨h1, h2⟩
  have hbest : bestPair (versionsByMachineU (pmaps reports) k) =
      (none, none) := bestPair_all_none _ hvbm
  have hbv : bestVersionFor (pmaps reports) k = none := by
    rw [bestVersionFor, hbest]
  by_cases hin : k ∈ allKeys (pmaps reports)
  · rw [if_pos hin, if_pos ((any_iff_mem_allKeys _ _).mpr hin)]
    simp only [updateEntryFor]
    rw [hm, Option.getD_some]
    cases hc : dget mp k with
    | none =>
      simp only [hbest, hbv]
      rfl
    | some p =>
      have hd : dget (versionsByMachineU (pmaps reports) k) m =
          some (vdataFor p) := by
        rw [dget_versionsByMachineU _ hnd2, hm]
        simp [hc]
      rw [hd]
      rcases hall (m, mp) (dget_mem _ _ _ hm) p hc with ⟨h1, h2⟩
      have hvk : (vdataFor p).version_key = none := by
        show version_key (shortOf p) (bundleOf p) = none
        exact (version_key_eq_none _ _).mpr ⟨h1, h2⟩
      have hlab : (vdataFor p).label = none := by
        show version_label (shortOf p) (bundleOf p) = none
        rw [h1, h2]
        rfl
      simp only [hvk, hbest, hbv, hlab]
      rfl
  · rw [if_neg hin,
      if_neg (fun hh => hin ((any_iff_mem_allKeys _ _).mp hh))]

/-- Witness for C1's amended claim: for the single machine `A` whose only
plugin `alpha` has both versions unknown, the filtered update list for
`alpha` is exactly one `"unknown_version"` entry. -/
theorem all_unknown_key_entries_witness :
    ((dget (compute_update_summary exUnknownReports).updates_by_machine
        "A").getD []).filter (fun u => u.key = "alpha") =
      [{ key := "alpha", bundle_name := some "Alpha"
         bundle_id := some "alpha", current_version := none
         latest_version := none, best_machine := none
         reason := "unknown_version" }] := by
  have hall : ∀ mp ∈ pmaps exUnknownReports, ∀ p,
      dget mp.2 "alpha" = some p →
      shortOf p = "unknown" ∧ bundleOf p = "unknown" := by
    intro mp hmp p hp
    have h2 : pmaps exUnknownReports =
        [("A", [("alpha", mkP (some "alpha") (some "Alpha") none none)])] :=
      rfl
    rw [h2, List.mem_singleton] at hmp
    subst hmp
    have h3 : dget [("alpha", mkP (some "alpha") (some "Alpha") none none)]
        "alpha" = some (mkP (some "alpha") (some "Alpha") none none) := rfl
    rw [h3] at hp
    cases hp
    exact ⟨rfl, rfl⟩
  have h := all_unknown_key_entries exUnknownReports "alpha" (by decide) hall
    "A" [("alpha", mkP (some "alpha") (some "Alpha") none none)] rfl
  simpa using h

/-- C1 counterexample to the claim as stated: with machine `A` alone
holding `alpha` with both versions unknown, `updates_by_machine["A"]`
does contain an entry for `alpha` (reason `"unknown_version"`), where the
claim said it contains none. -/
theorem all_unknown_single_machine_has_entry :
    ((dget (compute_update_summary exUnknownReports).updates_by_machine
        "A").getD []).map (fun u => (u.key, u.reason)) =
      [("alpha", "unknown_version")] := rfl

/-! ### C2 and C3: iteration-order dependence of the source -/

/-- C2: evaluating the code at the failing input — two inputs with the
same (machine, snapshot) pairs in different insertion orders produce
different `missing` components: the representative `bundle_name` sampled
for `C`'s missing entry comes from whichever holder is iterated first. -/
theorem compute_diff_missing_depends_on_order :
    List.Perm exOrderAB exOrderBA ∧
    ((dget (compute_diff exOrderAB).missing "C").getD []).map
      (fun e => e.bundle_name) = [some "Foo"] ∧
    ((dget (compute_diff exOrderBA).missing "C").getD []).map
      (fun e => e.bundle_name) = [some "Bar"] ∧
    (compute_diff exOrderAB).missing ≠ (compute_diff exOrderBA).missing := by
  refine ⟨List.Perm.swap _ _ _, rfl, rfl, ?_⟩
  intro hcontra
  have h2 := congrArg
    (fun x => ((dget x "C").getD []).map (fun e => e.bundle_name)) hcontra
  have h3 : ([some "Foo"] : List (Option String)) = [some "Bar"] := h2
  exact absurd h3 (by decide)

/-- C3: evaluating the code at the failing input — with machines `B` and
`A` holding key `a` at equal versions and `B` inserted first, the
`best_machine` reported to `C` is `B`, the first machine in the input
dict's insertion order; permuting the insertion order changes it to `A`,
so the tie-break is neither sorted-machine-name order nor independent of
the input mapping's iteration order. -/
theorem best_machine_tie_depends_on_insertion_order :
    List.Perm exTieBA exTieAB ∧
    ((dget (compute_update_summary exTieBA).updates_by_machine "C").getD
        []).map (fun u => u.best_machine) = [some "B"] ∧
    ((dget (compute_update_summary exTieAB).updates_by_machine "C").getD
        []).map (fun u => u.best_machine) = [some "A"] :=
  ⟨List.Perm.swap _ _ _, rfl, rfl⟩

/-! ### `updates_by_plugin` fold lemmas and C10 -/

theorem ubpStepM_no_entry (pms : List (String × List (String × Plugin)))
    (k : String) (ubm : List (String × List UpdateEntry))
    (ubp : List (String × PluginAgg)) (m : String)
    (hflt : ((dget ubm m).getD []).filter (fun u => u.key = k) = []) :
    ubpStepM pms k ubm ubp m = ubp := by
  simp only [ubpStepM, hflt]
  by_cases he : ((dget ubm m).getD []).isEmpty
  · rw [if_pos he]
  · rw [if_neg he, if_pos (by rfl)]

theorem ubpStepM_entry (pms : List (String × List (String × Plugin)))
    (k : String) (ubm : List (String × List UpdateEntry))
    (ubp : List (String × PluginAgg)) (m : String) (e : UpdateEntry)
    (hflt : ((dget ubm m).getD []).filter (fun u => u.key = k) = [e]) :
    ubpStepM pms k ubm ubp m =
      ubpAppend
        (if ubp.any (fun ke => ke.1 = k) then ubp
         else ubp ++ [(k, initAgg pms k)])
        k [actionOf m e] := by
  have hne : ¬((dget ubm m).getD []).isEmpty = true := by
    rw [List.isEmpty_iff]
    intro hnil
    rw [hnil] at hflt
    cases hflt
  simp only [ubpStepM, hflt]
  rw [if_neg hne, if_neg (by simp)]
  rfl

theorem ubpAppend_split (base : List (String × PluginAgg)) (k : String)
    (agg : PluginAgg) (acts : List MachineAction)
    (hbase : k ∉ base.map Prod.fst) :
    ubpAppend (base ++ [(k, agg)]) k acts =
      base ++ [(k, { agg with machines := agg.machines ++ acts })] := by
  rw [ubpAppend, List.map_append]
  congr 1
  · have h1 : ∀ a ∈ base,
        (fun ke => if ke.1 = k then
          (ke.1, { ke.2 with machines := ke.2.machines ++ acts })
        else ke) a = id a := by
      intro a ha
      have hne : ¬a.1 = k :=
        fun hh => hbase (hh ▸ List.mem_map_of_mem Prod.fst ha)
      simp [hne]
    rw [List.map_congr_left h1, List.map_id]
  · simp

theorem ubp_foldl_existing (pms : List (String × List (String × Plugin)))
    (k : String) (ubm : List (String × List UpdateEntry))
    (ms : List String)
    (hub : ∀ m ∈ ms, ((dget ubm m).getD []).filter (fun u => u.key = k) =
      (updateEntryFor pms k m).toList)
    (base : List (String × PluginAgg)) (hbase : k ∉ base.map Prod.fst)
    (agg : PluginAgg) :
    ms.foldl (ubpStepM pms k ubm) (base ++ [(k, agg)]) =
      base ++ [(k, { agg with machines := agg.machines ++
        (ms.map (fun m =>
          ((updateEntryFor pms k m).toList.map (actionOf m)))).flatten })] := by
  induction ms generalizing agg with
  | nil => simp
  | cons m ms ih =>
    rw [List.foldl_cons]
    have hubm := hub m (List.mem_cons_self _ _)
    cases he : updateEntryFor pms k m with
    | none =>
      rw [he] at hubm
      rw [ubpStepM_no_entry pms k ubm _ m hubm,
        ih (fun m2 hm2 => hub m2 (List.mem_cons.mpr (Or.inr hm2))) agg]
      simp [he]
    | some e =>
      rw [he] at hubm
      rw [ubpStepM_entry pms k ubm _ m e hubm]
      have hany : (base ++ [(k, agg)]).any (fun ke => ke.1 = k) = true := by
        rw [List.any_eq_true]
        exact ⟨(k, agg), by simp, by simp⟩
      rw [if_pos hany, ubpAppend_split base k agg [actionOf m e] hbase,
        ih (fun m2 hm2 => hub m2 (List.mem_cons.mpr (Or.inr hm2)))]
      simp [he, List.append_assoc]

theorem ubp_foldl_new (pms : List (String × List (String × Plugin)))
    (k : String) (ubm : List (String × List UpdateEntry))
    (ms : List String)
    (hub : ∀ m ∈ ms, ((dget ubm m).getD []).filter (fun u => u.key = k) =
      (updateEntryFor pms k m).toList)
    (base : List (String × PluginAgg)) (hbase : k ∉ base.map Prod.fst) :
    ms.foldl (ubpStepM pms k ubm) base =
      if ms.any (fun m => (updateEntryFor pms k m).isSome) then
        base ++ [(k, { initAgg pms k with machines :=
          (ms.map (fun m =>
            ((updateEntryFor pms k m).toList.map (actionOf m)))).flatten })]
      else base := by
  induction ms with
  | nil => simp
  | cons m ms ih =>
    rw [List.foldl_cons]
    have hubm := hub m (List.mem_cons_self _ _)
    cases he : updateEntryFor pms k m with
    | none =>
      rw [he] at hubm
      rw [ubpStepM_no_entry pms k ubm _ m hubm,
        ih (fun m2 hm2 => hub m2 (List.mem_cons.mpr (Or.inr hm2)))]
      by_cases hany : ms.any (fun m2 => (updateEntryFor pms k m2).isSome) = true
      · rw [if_pos hany, if_pos (by simp [List.any_cons, hany])]
        simp [he]
      · rw [if_neg hany, if_neg (by simp [List.any_cons, hany, he])]
    | some e =>
      rw [he] at hubm
      rw [ubpStepM_entry pms k ubm _ m e hubm]
      have hany : ¬base.any (fun ke => ke.1 = k) = true := by
        rw [List.any_eq_true]
        rintro ⟨ke, hke, hkek⟩
        have hkek2 : ke.1 = k := by simpa using hkek
        exact hbase (hkek2 ▸ List.mem_map_of_mem Prod.fst hke)
      rw [if_neg hany,
        ubpAppend_split base k (initAgg pms k) [actionOf m e] hbase,
        ubp_foldl_existing pms k ubm ms
          (fun m2 hm2 => hub m2 (List.mem_cons.mpr (Or.inr hm2))) base hbase,
        if_pos (by simp [List.any_cons, he])]
      simp [he, List.append_assoc, show (initAgg pms k).machines = [] from rfl]

theorem filterMapIf_fst_sublist (keys : List String) (c : String → Bool)
    (g : String → PluginAgg) :
    ((keys.filterMap (fun k2 => if c k2 then some (k2, g k2) else none)).map
      Prod.fst).Sublist keys := by
  induction keys with
  | nil => simp
  | cons k2 ks ih =>
    by_cases h : c k2 = true <;> simp only [List.filterMap_cons, h]
    · simp only [if_true, List.map_cons]
      exact List.Sublist.cons₂ _ ih
    · simp only [Bool.false_eq_true, if_false]
      exact ih.trans (List.sublist_cons_self _ _)

theorem dget_filterMapIf (keys : List String) (hk : keys.Nodup)
    (c : String → Bool) (g : String → PluginAgg) (k : String) :
    dget (keys.filterMap (fun k2 => if c k2 then some (k2, g k2) else none))
        k =
      if k ∈ keys ∧ c k = true then some (g k) else none := by
  induction keys with
  | nil => simp [dget_nil]
  | cons k2 ks ih =>
    rw [List.nodup_cons] at hk
    by_cases hc : c k2 = true
    · simp only [List.filterMap_cons, hc, if_true]
      rw [dget_cons]
      by_cases hkk : k2 = k
      · subst hkk
        rw [if_pos rfl, if_pos ⟨List.mem_cons_self _ _, hc⟩]
      · rw [if_neg (show ¬(k2, g k2).1 = k from hkk), ih hk.2]
        by_cases hmem : k ∈ ks
        · by_cases hck : c k = true
          · rw [if_pos ⟨hmem, hck⟩,
              if_pos ⟨List.mem_cons.mpr (Or.inr hmem), hck⟩]
          · rw [if_neg (fun hh => hck hh.2), if_neg (fun hh => hck hh.2)]
        · rw [if_neg (fun hh => hmem hh.1), if_neg (fun hh => by
            rcases List.mem_cons.mp hh.1 with rfl | h2
            · exact hkk rfl
            · exact hmem h2)]
    · simp only [List.filterMap_cons, hc, Bool.false_eq_true, if_false]
      rw [ih hk.2]
      by_cases hkk : k2 = k
      · subst hkk
        rw [if_neg (fun hh => hk.1 hh.1), if_neg (fun hh => hc hh.2)]
      · by_cases hmem : k ∈ ks
        · by_cases hck : c k = true
          · rw [if_pos ⟨hmem, hck⟩,
              if_pos ⟨List.mem_cons.mpr (Or.inr hmem), hck⟩]
          · rw [if_neg (fun hh => hck hh.2), if_neg (fun hh => hck hh.2)]
        · rw [if_neg (fun hh => hmem hh.1), if_neg (fun hh => by
            rcases List.mem_cons.mp hh.1 with rfl | h2
            · exact hkk rfl
            · exact hmem h2)]

theorem filterMap_singleton_if (k : String) (c : String → Bool)
    (g : String → PluginAgg) :
    List.filterMap (fun k2 => if c k2 then some (k2, g k2) else none) [k] =
      if c k then [(k, g k)] else [] := by
  rw [List.filterMap_cons, List.filterMap_nil]
  by_cases hc : c k = true
  · rw [if_pos hc, if_pos hc]
  · rw [if_neg hc, if_neg hc]

theorem foldl_stepKey_snd (machines : List String)
    (pms : List (String × List (String × Plugin))) (keys : List String)
    (hkn : keys.Nodup) :
    (keys.foldl (stepKey machines pms) (initUbm machines, [])).2 =
      keys.filterMap (fun k =>
        if machines.any (fun m => (updateEntryFor pms k m).isSome) then
          some (k, { initAgg pms k with machines :=
            (machines.map (fun m =>
              ((updateEntryFor pms k m).toList.map (actionOf m)))).flatten })
        else none) := by
  induction keys using List.reverseRecOn with
  | nil => rfl
  | append_singleton ks k ih =>
    rw [List.nodup_append] at hkn
    obtain ⟨hks, -, hdisj⟩ := hkn
    have hknotin : k ∉ ks := fun hk => hdisj hk (List.mem_singleton.mpr rfl)
    rw [List.foldl_append, List.foldl_cons, List.foldl_nil]
    have hstep : (stepKey machines pms
        (ks.foldl (stepKey machines pms) (initUbm machines, [])) k).2 =
      stepUbp machines pms k
        (stepUbm pms k
          (ks.foldl (stepKey machines pms) (initUbm machines, [])).1)
        (ks.foldl (stepKey machines pms) (initUbm machines, [])).2 := rfl
    have hfst : (ks.foldl (stepKey machines pms) (initUbm machines, [])).1 =
        machines.map (fun m => (m, ([] : List UpdateEntry) ++
          (ks.map (fun k2 => (updateEntryFor pms k2 m).toList)).flatten)) :=
      foldl_stepKey_fst machines pms ks (fun _ => []) []
    rw [hstep, hfst, ih hks,
      stepUbm_map pms k machines (fun m => ([] : List UpdateEntry) ++
        (ks.map (fun k2 => (updateEntryFor pms k2 m).toList)).flatten)]
    have hub : ∀ m ∈ machines,
        ((dget (machines.map (fun m2 => (m2,
            (([] : List UpdateEntry) ++
              (ks.map (fun k2 => (updateEntryFor pms k2 m2).toList)).flatten)
            ++ (updateEntryFor pms k m2).toList))) m).getD []).filter
          (fun u => u.key = k) = (updateEntryFor pms k m).toList := by
      intro m hm
      have hd := dget_map_self machines (fun m2 =>
        (([] : List UpdateEntry) ++
          (ks.map (fun k2 => (updateEntryFor pms k2 m2).toList)).flatten)
        ++ (updateEntryFor pms k m2).toList) m
      rw [if_pos hm] at hd
      rw [hd, Option.getD_some, List.filter_append, List.nil_append,
        flatten_filter_key ks hks _
          (fun k2 e he => updateEntryFor_key _ _ _ _
            (Option.mem_def.mp (Option.mem_toList.mp he))) k,
        if_neg hknotin, List.nil_append,
        List.filter_eq_self.mpr (fun e he => by
          simp [updateEntryFor_key pms k m e
            (Option.mem_def.mp (Option.mem_toList.mp he))])]
    have hbase : k ∉ (ks.filterMap (fun k2 =>
        if machines.any (fun m => (updateEntryFor pms k2 m).isSome) then
          some (k2, { initAgg pms k2 with machines :=
            (machines.map (fun m =>
              ((updateEntryFor pms k2 m).toList.map (actionOf m)))).flatten })
        else none)).map Prod.fst := fun hkm =>
      hknotin ((filterMapIf_fst_sublist ks _ _).mem hkm)
    rw [stepUbp, ubp_foldl_new pms k _ machines hub _ hbase,
      List.filterMap_append, filterMap_singleton_if]
    by_cases hc : machines.any (fun m => (updateEntryFor pms k m).isSome) = true
    · rw [if_pos hc, if_pos hc]
    · rw [if_neg hc, if_neg hc, List.append_nil]

theorem actions_names_sublist (pms : List (String × List (String × Plugin)))
    (k : String) (machines : List String) :
    (((machines.map (fun m =>
        ((updateEntryFor pms k m).toList.map (actionOf m)))).flatten).map
      (fun a => a.machine)).Sublist machines := by
  induction machines with
  | nil => simp
  | cons m ms ih =>
    rw [List.map_cons, List.flatten_cons, List.map_append]
    cases he : updateEntryFor pms k m with
    | none =>
      simp only [he, Option.toList_none, List.map_nil, List.nil_append]
      exact ih.trans (List.sublist_cons_self _ _)
    | some e =>
      simp only [he, Option.toList_some, List.map_cons, List.map_nil,
        List.cons_append, List.nil_append]
      exact List.Sublist.cons₂ _ ih

/-- C10: `updates_by_plugin` has an entry for a key iff some machine
received an update entry for that key in `updates_by_machine`; the
entry's `machines` list has exactly one element per such update entry —
with that entry's machine, `current_version` and `reason` — and those
elements appear in sorted machine-name order. -/
theorem updates_by_plugin_spec (reports : List (String × Report)) :
    (∀ k,
      (dget (compute_update_summary reports).updates_by_plugin k).isSome ↔
      ∃ m ∈ (compute_update_summary reports).machines,
        ∃ e ∈ (dget (compute_update_summary reports).updates_by_machine
          m).getD [], e.key = k) ∧
    (∀ k agg,
      dget (compute_update_summary reports).updates_by_plugin k = some agg →
      agg.machines =
        ((compute_update_summary reports).machines.map (fun m =>
          (((dget (compute_update_summary reports).updates_by_machine
              m).getD []).filter (fun u => u.key = k)).map
            (actionOf m))).flatten ∧
      (agg.machines.map (fun a => a.machine)).Sorted (· ≤ ·)) := by
  have hubp : (compute_update_summary reports).updates_by_plugin =
      (allKeys (pmaps reports)).filterMap (fun k =>
        if (sortedStrings (reports.map Prod.fst)).any
            (fun m => (updateEntryFor (pmaps reports) k m).isSome) then
          some (k, { initAgg (pmaps reports) k with machines :=
            ((sortedStrings (reports.map Prod.fst)).map (fun m =>
              ((updateEntryFor (pmaps reports) k m).toList.map
                (actionOf m)))).flatten })
        else none) :=
    foldl_stepKey_snd (sortedStrings (reports.map Prod.fst)) (pmaps reports)
      (allKeys (pmaps reports)) (allKeys_nodup _)
  have hd : ∀ k, dget (compute_update_summary reports).updates_by_plugin k =
      if k ∈ allKeys (pmaps reports) ∧
          ((sortedStrings (reports.map Prod.fst)).any
            (fun m => (updateEntryFor (pmaps reports) k m).isSome)) = true
      then
        some { initAgg (pmaps reports) k with machines :=
          ((sortedStrings (reports.map Prod.fst)).map (fun m =>
            ((updateEntryFor (pmaps reports) k m).toList.map
              (actionOf m)))).flatten }
      else none := by
    intro k
    rw [hubp]
    exact dget_filterMapIf (allKeys (pmaps reports)) (allKeys_nodup _) _ _ k
  constructor
  · intro k
    constructor
    · intro hs
      rw [hd k] at hs
      by_cases hcond : k ∈ allKeys (pmaps reports) ∧
          ((sortedStrings (reports.map Prod.fst)).any
            (fun m => (updateEntryFor (pmaps reports) k m).isSome)) = true
      · obtain ⟨hkin, hck⟩ := hcond
        rcases List.any_eq_true.mp hck with ⟨m, hm, hsome⟩
        rcases Option.isSome_iff_exists.mp (by simpa using hsome) with ⟨e, he⟩
        refine ⟨m, hm, e, ?_, updateEntryFor_key _ _ _ _ he⟩
        have hein : e ∈ ((dget (compute_update_summary
            reports).updates_by_machine m).getD []).filter
            (fun u => u.key = k) := by
          rw [ubm_filter_key reports m hm k, if_pos hkin, he]
          exact List.mem_singleton.mpr rfl
        exact List.mem_of_mem_filter hein
      · rw [if_neg hcond] at hs
        cases hs
    · rintro ⟨m, hm, e, he, hek⟩
      rw [hd k]
      have hfk := ubm_filter_key reports m hm k
      have hein : e ∈ ((dget (compute_update_summary
          reports).updates_by_machine m).getD []).filter
          (fun u => u.key = k) :=
        List.mem_filter.mpr ⟨he, by simp [hek]⟩
      rw [hfk] at hein
      by_cases hkin : k ∈ allKeys (pmaps reports)
      · rw [if_pos hkin] at hein
        have hsome : updateEntryFor (pmaps reports) k m = some e :=
          Option.mem_def.mp (Option.mem_toList.mp hein)
        have hck : ((sortedStrings (reports.map Prod.fst)).any
            (fun m2 => (updateEntryFor (pmaps reports) k m2).isSome)) =
            true :=
          List.any_eq_true.mpr ⟨m, hm, by simp [hsome]⟩
        rw [if_pos ⟨hkin, hck⟩]
        rfl
      · rw [if_neg hkin] at hein
        cases hein
  · intro k agg hagg
    rw [hd k] at hagg
    by_cases hcond : k ∈ allKeys (pmaps reports) ∧
        ((sortedStrings (reports.map Prod.fst)).any
          (fun m => (updateEntryFor (pmaps reports) k m).isSome)) = true
    · rw [if_pos hcond] at hagg
      cases hagg
      constructor
      · have hmm : (compute_update_summary reports).machines.map (fun m =>
            (((dget (compute_update_summary reports).updates_by_machine
                m).getD []).filter (fun u => u.key = k)).map (actionOf m)) =
            (sortedStrings (reports.map Prod.fst)).map (fun m =>
              ((updateEntryFor (pmaps reports) k m).toList.map
                (actionOf m))) :=
          List.map_congr_left (fun m hm => by
            rw [ubm_filter_key reports m hm k, if_pos hcond.1])
        rw [hmm]
      · exact List.Pairwise.sublist
          (actions_names_sublist (pmaps reports) k
            (sortedStrings (reports.map Prod.fst)))
          (sortedStrings_sorted_le _)
    · rw [if_neg hcond] at hagg
      cases hagg

/-- Witness for C10 at `exTwo`: the aggregate for key `a` exists, its
`machines` list matches the per-machine update entries, and its machine
names are sorted. -/
theorem updates_by_plugin_spec_witness :
    (∃ m ∈ (compute_update_summary exTwo).machines,
      ∃ e ∈ (dget (compute_update_summary exTwo).updates_by_machine
        m).getD [], e.key = "a") ∧
    ({ bundle_name := some "Alpha", bundle_id := some "a"
       latest_version := some "2.0 (2)", best_machine := some "B"
       machines := [{ machine := "A", current_version := some "1.0 (1)"
                      reason := "outdated" }] } : PluginAgg).machines =
      ((compute_update_summary exTwo).machines.map (fun m =>
        (((dget (compute_update_summary exTwo).updates_by_machine
            m).getD []).filter (fun u => u.key = "a")).map
          (actionOf m))).flatten ∧
    ((({ bundle_name := some "Alpha", bundle_id := some "a"
         latest_version := some "2.0 (2)", best_machine := some "B"
         machines := [{ machine := "A", current_version := some "1.0 (1)"
                        reason := "outdated" }] } : PluginAgg).machines.map
      (fun a => a.machine)).Sorted (· ≤ ·)) := by
  have h := updates_by_plugin_spec exTwo
  have h2 := h.2 "a"
    { bundle_name := some "Alpha", bundle_id := some "a"
      latest_version := some "2.0 (2)", best_machine := some "B"
      machines := [{ machine := "A", current_version := some "1.0 (1)"
                     reason := "outdated" }] } rfl
  exact ⟨(h.1 "a").mp (by decide), h2.1, h2.2⟩

end PTSync
